import Mathlib

/-!
# Verification of the nutrition PCA/k-means pipeline

Shallow embedding of the data-preparation and dimensionality-reduction
pipeline of the `2-PCA.ipynb` notebook: cleaning (`dropna`), the
descriptive/numeric column split (`iloc`/`drop`), the Box-Cox power
transform (`scipy.stats.boxcox`), standardization
(`StandardScaler.fit_transform`), PCA projection, and k-means clustering.
Numeric values are modelled as exact rationals (and reals for the
power-transform values); the library primitives that are not part of the
repository (scaler, PCA, k-means internals) are modelled from the spec and
marked as such in their doc comments.
-/

namespace PCAPipeline

/-! ## Tables and cleaning (`df.dropna()`, cells 11-13) -/

/-- A raw row of the loaded table: the `NDB_No` identifier together with the
cell values, where `none` models a missing (`NaN`) entry. -/
structure RawRow where
  id : ℕ
  cells : List (Option ℚ)
deriving DecidableEq, Repr

/-- A table is an ordered list of raw rows. -/
abbrev Table := List RawRow

/-- A row is complete when no cell is missing. -/
def complete (r : RawRow) : Bool := r.cells.all Option.isSome

/-- `df.dropna()`: remove every row containing a missing value. -/
def clean (t : Table) : Table := t.filter complete

/-! ## Column split (cells 16-20) -/

/-- Column positions selected into the descriptive subset:
`df.iloc[:, [0, 1, 2] + [i for i in range(50, 54)]]`. -/
def descPositions : List ℕ := [0, 1, 2] ++ (List.range 4).map (fun i => i + 50)

/-- Column positions selected into the numeric subset, as a function of the
header names: `df.iloc[:, :-5]` keeps the first `length - 5` columns, then
`drop(['FoodGroup', 'Shrt_Desc'], axis=1)` removes the two text columns. -/
def nutrPositions (names : List String) : List ℕ :=
  (List.range (names.length - 5)).filter
    (fun i => names.getD i "" ≠ "FoodGroup" ∧ names.getD i "" ≠ "Shrt_Desc")

/-- Select the cells at the given column positions (pandas `iloc` column
selection). -/
def selectCols (ps : List ℕ) (cells : List (Option ℚ)) : List (Option ℚ) :=
  ps.filterMap (fun i => cells.get? i)

/-- The descriptive subset: cleaned rows, indexed by `NDB_No`, restricted to
the descriptive column positions (cell 16). -/
def descSubset (t : Table) : List (ℕ × List (Option ℚ)) :=
  (clean t).map (fun r => (r.id, selectCols descPositions r.cells))

/-- The numeric subset: cleaned rows, indexed by `NDB_No`, restricted to the
numeric column positions (cells 18-20). -/
def numericSubset (names : List String) (t : Table) : List (ℕ × List (Option ℚ)) :=
  (clean t).map (fun r => (r.id, selectCols (nutrPositions names) r.cells))

/-- The projected matrix re-indexed by the descriptive index
(`pd.DataFrame(pca[:, :5], index=desc_df.index)`, cells 53 and 67): one row of
projected coordinates per cleaned row, computed by the numeric pipeline `f`. -/
def projected (f : RawRow → List ℚ) (t : Table) : List (ℕ × List ℚ) :=
  (clean t).map (fun r => (r.id, f r))

/-- The identifier column of an indexed table. -/
def idsOf {β : Type} (l : List (ℕ × β)) : List ℕ := l.map Prod.fst

/-! ## Column statistics and standardization (cell 35) -/

/-- Arithmetic mean of a column (0 for the empty column, as `0 / 0 = 0`). -/
def mean (xs : List ℚ) : ℚ := xs.sum / xs.length

/-- Population variance of a column (`ddof = 0`, the `StandardScaler` and
`numpy` default). -/
def popVar (xs : List ℚ) : ℚ := mean (xs.map (fun x => (x - mean xs) ^ 2))

/-- Modelled from the spec: one column of
`StandardScaler().fit_transform` (library code, not in the repository):
subtract the column mean and divide by the column standard deviation `σ`.
The standard deviation is passed as a parameter and characterized by the
hypotheses `0 < σ` and `σ ^ 2 = popVar xs` in the theorems below. -/
def stdCol (σ : ℚ) (xs : List ℚ) : List ℚ := xs.map (fun x => (x - mean xs) / σ)

/-! ## Box-Cox power transform (cells 29 and 31) -/

/-- `nutr_df = nutr_df + 1` (cell 29): shift every value by `+1`. -/
def shiftPlusOne (xs : List ℚ) : List ℚ := xs.map (fun v => v + 1)

/-- Modelled from the spec: the Box-Cox value map of `scipy.stats.boxcox`
(library code, not in the repository): `v ↦ (v ^ λ − 1) / λ` when `λ ≠ 0`
and `v ↦ ln v` when `λ = 0`. -/
noncomputable def boxcoxVal (lam v : ℝ) : ℝ :=
  if lam = 0 then Real.log v else (v ^ lam - 1) / lam

/-- Modelled from the spec: `scipy.stats.boxcox` applied to one column
(library code, not in the repository): raises a `NumericError` exactly when
some input value is non-positive, otherwise applies `boxcoxVal` with the
per-column exponent `lam` to every value. -/
noncomputable def boxcox (lam : ℝ) (xs : List ℚ) : Except String (List ℝ) :=
  if xs.all (fun v => decide (0 < v)) then
    Except.ok (xs.map fun v => boxcoxVal lam (v : ℝ))
  else
    Except.error "NumericError"

/-- The Box-Cox loop of cell 31: transform the columns in order, with a
per-column exponent; a failure on any column aborts the whole loop (the
`Except` monad short-circuits), with no recovery or default substitution. -/
noncomputable def boxcoxTables (lams : ℕ → ℝ) :
    ℕ → List (List ℚ) → Except String (List (List ℝ))
  | _, [] => Except.ok []
  | j, c :: cs => do
      let y ← boxcox (lams j) c
      let ys ← boxcoxTables lams (j + 1) cs
      pure (y :: ys)

/-- `boxcox` fails exactly on a column containing a non-positive value. -/
lemma boxcox_error_iff (lam : ℝ) (xs : List ℚ) :
    boxcox lam xs = Except.error "NumericError" ↔ ∃ v ∈ xs, v ≤ 0 := by
  unfold boxcox
  by_cases h : xs.all (fun v => decide (0 < v))
  · rw [if_pos h]
    simp only [List.all_eq_true, decide_eq_true_eq] at h
    constructor
    · intro hcontra; cases hcontra
    · rintro ⟨v, hv, hle⟩
      exact absurd (h v hv) (not_lt.mpr hle)
  · rw [if_neg h]
    simp only [List.all_eq_true, decide_eq_true_eq, not_forall] at h
    obtain ⟨v, hv, hnp⟩ := h
    exact iff_of_true rfl ⟨v, hv, not_lt.mp hnp⟩

/-- A failure on any column aborts the whole Box-Cox loop. -/
lemma boxcoxTables_error (lams : ℕ → ℝ) (j : ℕ) (cs : List (List ℚ))
    (h : ∃ c ∈ cs, ∃ v ∈ c, v ≤ 0) :
    boxcoxTables lams j cs = Except.error "NumericError" := by
  induction cs generalizing j with
  | nil => obtain ⟨c, hc, _⟩ := h; cases hc
  | cons c cs ih =>
      by_cases hc : ∃ v ∈ c, v ≤ 0
      · have herr := (boxcox_error_iff (lams j) c).mpr hc
        simp only [boxcoxTables, herr]
        rfl
      · obtain ⟨c', hc', hbad⟩ := h
        rcases List.mem_cons.mp hc' with rfl | htail
        · exact absurd hbad hc
        · have hok : ∃ ys, boxcox (lams j) c = Except.ok ys := by
            unfold boxcox
            rw [if_pos]
            · exact ⟨_, rfl⟩
            · simp only [List.all_eq_true, decide_eq_true_eq]
              intro v hv
              by_contra hnp
              exact hc ⟨v, hv, not_lt.mp hnp⟩
          obtain ⟨ys, hys⟩ := hok
          simp only [boxcoxTables, hys, ih (j + 1) ⟨c', htail, hbad⟩]
          rfl

/-! ## Helper lemmas on column sums -/

/-- Summing a column after subtracting `a` and dividing by `b`. -/
lemma sum_map_sub_div (xs : List ℚ) (a b : ℚ) :
    (xs.map fun x => (x - a) / b).sum = (xs.sum - xs.length * a) / b := by
  induction xs with
  | nil => simp
  | cons x xs ih =>
      simp only [List.map_cons, List.sum_cons, ih, List.length_cons, div_add_div_same]
      push_cast
      ring_nf

/-- Summing a column after applying `g` and dividing by `c`. -/
lemma sum_map_div (xs : List ℚ) (g : ℚ → ℚ) (c : ℚ) :
    (xs.map fun x => g x / c).sum = (xs.map g).sum / c := by
  induction xs with
  | nil => simp
  | cons x xs ih => simp [ih, div_add_div_same]

/-- A nonempty column's sum is its length times its mean. -/
lemma sum_eq_length_mul_mean (xs : List ℚ) (h : xs ≠ []) :
    xs.sum = xs.length * mean xs := by
  have hn : (xs.length : ℚ) ≠ 0 := by
    exact_mod_cast Nat.cast_ne_zero.mpr (fun h0 => h (List.length_eq_zero.mp h0))
  field_simp [mean]

/-- A column with nonzero population variance is nonempty. -/
lemma ne_nil_of_popVar_ne_zero (xs : List ℚ) (h : popVar xs ≠ 0) : xs ≠ [] := by
  intro hnil
  apply h
  simp [hnil, popVar, mean]

theorem standardized_mean_zero (xs : List ℚ) (σ : ℚ) (h : xs ≠ []) :
    mean (stdCol σ xs) = 0 := by
  have hn : (xs.length : ℚ) ≠ 0 := by
    exact_mod_cast Nat.cast_ne_zero.mpr (fun h0 => h (List.length_eq_zero.mp h0))
  simp only [mean, stdCol, List.length_map, sum_map_sub_div]
  have hc : (xs.length : ℚ) * (xs.sum / xs.length) = xs.sum := by field_simp
  rw [hc, sub_self, zero_div, zero_div]

theorem standardized_popVar_one (xs : List ℚ) (σ : ℚ)
    (hσ : 0 < σ) (hvar : σ ^ 2 = popVar xs) :
    popVar (stdCol σ xs) = 1 := by
  have hv : popVar xs ≠ 0 := by
    rw [← hvar]; positivity
  have hne : xs ≠ [] := ne_nil_of_popVar_ne_zero xs hv
  have hn : (xs.length : ℚ) ≠ 0 := by
    exact_mod_cast Nat.cast_ne_zero.mpr (fun h0 => hne (List.length_eq_zero.mp h0))
  have hm0 : mean (stdCol σ xs) = 0 := standardized_mean_zero xs σ hne
  have hσ2 : σ ^ 2 ≠ 0 := by positivity
  have hsq : ((stdCol σ xs).map fun y => (y - mean (stdCol σ xs)) ^ 2)
      = xs.map fun x => ((x - mean xs) ^ 2) / σ ^ 2 := by
    rw [hm0]
    simp only [stdCol, List.map_map]
    refine List.map_congr_left fun x _ => ?_
    simp [Function.comp, div_pow]
  have hsv : (xs.map fun x => (x - mean xs) ^ 2).sum = xs.length * popVar xs := by
    have : popVar xs = (xs.map fun x => (x - mean xs) ^ 2).sum / xs.length := by
      simp [popVar, mean]
    rw [this]; field_simp
  rw [popVar, hsq, mean, sum_map_div, List.length_map, hsv, ← hvar]
  field_simp

/-- C1: for every numeric column, after standardization
(`StandardScaler().fit_transform`, cell 35) the column has mean 0 and
population standard deviation 1 (exactly, in the exact-rational model): the
mean is 0, the population variance is 1, and hence the standard deviation —
the nonnegative number whose square is the population variance — is 1.
The hypotheses characterize `σ` as the column's population standard
deviation. -/
theorem C1_standardized_mean_zero_std_one (xs : List ℚ) (σ : ℚ)
    (hσ : 0 < σ) (hvar : σ ^ 2 = popVar xs) :
    mean (stdCol σ xs) = 0 ∧ popVar (stdCol σ xs) = 1 ∧
      ∀ τ : ℚ, 0 ≤ τ → τ ^ 2 = popVar (stdCol σ xs) → τ = 1 := by
  have hv : popVar xs ≠ 0 := by rw [← hvar]; positivity
  have hne : xs ≠ [] := ne_nil_of_popVar_ne_zero xs hv
  refine ⟨standardized_mean_zero xs σ hne, standardized_popVar_one xs σ hσ hvar, ?_⟩
  intro τ hτ h1
  rw [standardized_popVar_one xs σ hσ hvar] at h1
  have h2 : (τ - 1) * (τ + 1) = 0 := by
    calc (τ - 1) * (τ + 1) = τ ^ 2 - 1 := by ring
      _ = 0 := by rw [h1]; ring
  rcases mul_eq_zero.mp h2 with h | h
  · linarith
  · linarith

/-- Witness for C1 at the concrete column `[1, 3]` with `σ = 1`. -/
theorem C1_witness :
    mean (stdCol 1 [(1:ℚ), 3]) = 0 ∧ popVar (stdCol 1 [(1:ℚ), 3]) = 1 :=
  ⟨(C1_standardized_mean_zero_std_one [1, 3] 1 one_pos
      (by norm_num [popVar, mean])).1,
   (C1_standardized_mean_zero_std_one [1, 3] 1 one_pos
      (by norm_num [popVar, mean])).2.1⟩

/-- C8: cleaning is idempotent — re-running the missing-value row filter on an
already-cleaned table removes zero additional rows. -/
theorem C8_clean_idempotent (t : Table) : clean (clean t) = clean t := by
  simp [clean, List.filter_filter]

/-- C4: the row-identifier (`NDB_No`) sets of the descriptive subset, the
numeric subset and the projected matrix built from a cleaned table are
exactly equal (as ordered lists, hence as sets), and every row of the final
output originates from a complete row of the original table — rows removed
by cleaning are absent, not imputed. -/
theorem C4_row_identifier_sets (t : Table) (names : List String)
    (f : RawRow → List ℚ) :
    idsOf (descSubset t) = idsOf (numericSubset names t) ∧
    idsOf (numericSubset names t) = idsOf (projected f t) ∧
    ∀ i ∈ idsOf (projected f t), ∃ r ∈ t, complete r = true ∧ r.id = i := by
  refine ⟨?_, ?_, ?_⟩
  · simp [idsOf, descSubset, numericSubset, List.map_map]
  · simp [idsOf, numericSubset, projected, List.map_map]
  · intro i hi
    simp only [idsOf, projected, List.map_map, List.mem_map,
      Function.comp] at hi
    obtain ⟨r, hr, hid⟩ := hi
    have := List.mem_filter.mp (by simpa [clean] using hr)
    exact ⟨r, this.1, this.2, hid⟩

/-- Witness for C4 at a concrete two-row table, one row with a missing
value. -/
theorem C4_witness :
    ∀ i ∈ idsOf (projected (fun _ => []) [⟨1, [some 2, none]⟩, ⟨2, [some 1, some 1]⟩]),
      ∃ r ∈ ([⟨1, [some 2, none]⟩, ⟨2, [some 1, some 1]⟩] : Table),
        complete r = true ∧ r.id = i :=
  (C4_row_identifier_sets [⟨1, [some 2, none]⟩, ⟨2, [some 1, some 1]⟩] []
    (fun _ => [])).2.2

/-- C10: for a cleaned table with 54 columns, the column split is not a
partition — column position 49 (a valid position) is selected neither by the
descriptive subset nor by the numeric subset, so it is silently dropped. -/
theorem C10_column_49_in_neither_subset (names : List String)
    (h : names.length = 54) :
    49 < names.length ∧ 49 ∉ descPositions ∧ 49 ∉ nutrPositions names := by
  refine ⟨by omega, by decide, ?_⟩
  intro hmem
  simp only [nutrPositions, List.mem_filter, List.mem_range, decide_eq_true_eq] at hmem
  have := hmem.1
  omega

/-- Witness for C10 at a concrete 54-column header. -/
theorem C10_witness :
    49 < (List.replicate 54 "col").length ∧
      49 ∉ descPositions ∧ 49 ∉ nutrPositions (List.replicate 54 "col") :=
  C10_column_49_in_neither_subset (List.replicate 54 "col") (by simp)

/-- C5: the power-transform step maps each value `v` to `(v^λ − 1)/λ` for
`λ ≠ 0` and to `ln v` for `λ = 0`; it fails with a `NumericError` if and
only if some input value to this step is non-positive, and such a failure
aborts the column loop (and hence the pipeline) at that stage, with no
recovery or default substitution. -/
theorem C5_boxcox_error_iff_nonpositive (lam : ℝ) (xs : List ℚ)
    (lams : ℕ → ℝ) (j : ℕ) (cs : List (List ℚ)) :
    (boxcox lam xs = Except.error "NumericError" ↔ ∃ v ∈ xs, v ≤ 0) ∧
    (∀ ys, boxcox lam xs = Except.ok ys →
      ys = xs.map fun v => boxcoxVal lam (v : ℝ)) ∧
    ((∃ c ∈ cs, ∃ v ∈ c, v ≤ 0) →
      boxcoxTables lams j cs = Except.error "NumericError") := by
  refine ⟨boxcox_error_iff lam xs, ?_, boxcoxTables_error lams j cs⟩
  intro ys hys
  unfold boxcox at hys
  by_cases h : xs.all (fun v => decide (0 < v))
  · rw [if_pos h] at hys
    exact (Except.ok.inj hys).symm
  · rw [if_neg h] at hys
    cases hys

/-- Witness for C5: the column `[-1]` makes the transform fail with a
`NumericError`. -/
theorem C5_witness : boxcox 1 [(-1 : ℚ)] = Except.error "NumericError" :=
  (C5_boxcox_error_iff_nonpositive 1 [(-1 : ℚ)] (fun _ => 1) 0 []).1.mpr
    ⟨-1, by simp, by norm_num⟩

/-- C6 counterexample: the claim fails on the code. The single-column table
`[-1]` satisfies the Cleaner's output contract as stated in the claim (no
missing values; every rational is finite), yet after the `+1` shift its value
is `0`, which is not strictly positive, and the power transform's
non-positive-input error branch is reached. -/
theorem C6_counterexample :
    (¬ ∀ v ∈ shiftPlusOne [(-1 : ℚ)], 0 < v) ∧
      boxcox 1 (shiftPlusOne [(-1 : ℚ)]) = Except.error "NumericError" := by
  constructor
  · intro hall
    have h0 : (0 : ℚ) ∈ shiftPlusOne [(-1 : ℚ)] := by
      simp [shiftPlusOne]
    exact absurd (hall 0 h0) (by norm_num)
  · refine (boxcox_error_iff 1 (shiftPlusOne [(-1 : ℚ)])).mpr ?_
    exact ⟨0, by simp [shiftPlusOne], le_refl 0⟩

/-- C6 (amended): if additionally every value of the numeric subset is
non-negative — as nutrient measurements are — then after the `+1` shift every
value is strictly positive, and the power transform's non-positive-input
error branch is unreachable: `boxcox` succeeds on the shifted column for
every exponent. -/
theorem C6_shift_makes_positive (xs : List ℚ) (h : ∀ v ∈ xs, 0 ≤ v) :
    (∀ v ∈ shiftPlusOne xs, 0 < v) ∧
      ∀ lam : ℝ, boxcox lam (shiftPlusOne xs) =
        Except.ok ((shiftPlusOne xs).map fun v => boxcoxVal lam (v : ℝ)) := by
  have hpos : ∀ v ∈ shiftPlusOne xs, 0 < v := by
    intro v hv
    simp only [shiftPlusOne, List.mem_map] at hv
    obtain ⟨w, hw, rfl⟩ := hv
    have := h w hw
    linarith
  refine ⟨hpos, fun lam => ?_⟩
  unfold boxcox
  rw [if_pos]
  simp only [List.all_eq_true, decide_eq_true_eq]
  exact fun v hv => hpos v hv

/-- Witness for the amended C6 at the concrete non-negative column `[0, 2]`:
the power transform succeeds on the shifted column. -/
theorem C6_witness :
    boxcox 1 (shiftPlusOne [(0 : ℚ), 2]) =
      Except.ok ((shiftPlusOne [(0 : ℚ), 2]).map fun v => boxcoxVal 1 (v : ℝ)) :=
  (C6_shift_makes_positive [(0 : ℚ), 2] (by norm_num)).2 1

/-! ## k-means clustering (cell 65) -/

/-- Squared Euclidean distance between two coordinate vectors. -/
def dist2 (u v : List ℚ) : ℚ := (List.zipWith (fun a b => (a - b) ^ 2) u v).sum

/-- Index of the centroid nearest to `v` (first one in case of ties). -/
def nearestIdx (cs : List (List ℚ)) (v : List ℚ) : ℕ :=
  (List.range cs.length).foldl
    (fun best i =>
      if dist2 v (cs.getD i []) < dist2 v (cs.getD best []) then i else best) 0

/-- Assign every row the label of its nearest centroid. -/
def assignLabels (cs rows : List (List ℚ)) : List ℕ := rows.map (nearestIdx cs)

/-- Componentwise vector sum. -/
def vecAdd (u v : List ℚ) : List ℚ := List.zipWith (· + ·) u v

/-- Scalar multiple of a vector. -/
def vecScale (c : ℚ) (u : List ℚ) : List ℚ := u.map (fun x => c * x)

/-- Componentwise mean of a nonempty collection of vectors. -/
def vecMean : List (List ℚ) → List ℚ
  | [] => []
  | x :: xs => vecScale (1 / ((x :: xs).length : ℚ)) (xs.foldl vecAdd x)

/-- Updated centroid `k`: the mean of the rows currently assigned to it,
keeping the old centroid when no row is assigned. -/
def centroidOf (rows cs : List (List ℚ)) (k : ℕ) : List ℚ :=
  let members := rows.filter (fun r => nearestIdx cs r == k)
  if members.isEmpty then cs.getD k [] else vecMean members

/-- One Lloyd update of all `C` centroids. -/
def updateCentroids (rows cs : List (List ℚ)) (C : ℕ) : List (List ℚ) :=
  (List.range C).map (centroidOf rows cs)

/-- `T` Lloyd iterations (the library's fixed iteration cap). -/
def kmeansIter (rows : List (List ℚ)) (C : ℕ) : ℕ → List (List ℚ) → List (List ℚ)
  | 0, cs => cs
  | t + 1, cs => kmeansIter rows C t (updateCentroids rows cs C)

/-- Modelled from the spec: the seed-determined initial centroids of
`KMeans(n_clusters=C, random_state=seed)` (library code, not in the
repository): a deterministic choice of `C` rows driven by the seed. -/
def initCentroids (rows : List (List ℚ)) (C seed : ℕ) : List (List ℚ) :=
  (List.range C).map (fun i => rows.getD ((seed + i) % rows.length) [])

/-- Modelled from the spec: `KMeans(...).fit(...).labels_` (cell 65, library
code, not in the repository): Lloyd's algorithm from the seed-determined
initial centroids, with a fixed iteration cap `T`, returning one label per
row. -/
def kmeansLabels (rows : List (List ℚ)) (C seed T : ℕ) : List ℕ :=
  assignLabels (kmeansIter rows C T (initCentroids rows C seed)) rows

/-- The nearest-centroid index is a valid centroid index. -/
lemma nearestIdx_lt (cs : List (List ℚ)) (v : List ℚ) (h : cs ≠ []) :
    nearestIdx cs v < cs.length := by
  have key : ∀ (l : List ℕ) (b : ℕ), b < cs.length → (∀ x ∈ l, x < cs.length) →
      l.foldl (fun best i =>
        if dist2 v (cs.getD i []) < dist2 v (cs.getD best []) then i else best) b
        < cs.length := by
    intro l
    induction l with
    | nil => intro b hb _; exact hb
    | cons x xs ih =>
        intro b hb hl
        simp only [List.foldl_cons]
        apply ih
        · by_cases hd : dist2 v (cs.getD x []) < dist2 v (cs.getD b [])
          · rw [if_pos hd]; exact hl x (List.mem_cons_self x xs)
          · rw [if_neg hd]; exact hb
        · intro y hy; exact hl y (List.mem_cons_of_mem x hy)
  apply key
  · exact List.length_pos.mpr h
  · intro x hx; exact List.mem_range.mp hx

/-- The number of centroids is `C` after any number of Lloyd iterations. -/
lemma kmeansIter_length (rows : List (List ℚ)) (C T : ℕ) (cs : List (List ℚ))
    (h : cs.length = C) : (kmeansIter rows C T cs).length = C := by
  induction T generalizing cs with
  | zero => simpa [kmeansIter] using h
  | succ t ih => exact ih (updateCentroids rows cs C) (by simp [updateCentroids])

/-! ## PCA: scores, correlation, explained variance (cells 41-57) -/

section PCAMatrices

open Matrix

variable {n m : ℕ}

/-- `pca = fit.fit_transform(nutr_df_TF)` (cell 41): the component scores are
the standardized matrix expressed in the component basis `W` (one basis
vector per column of `W`). -/
def scores (X : Matrix (Fin n) (Fin m) ℚ) (W : Matrix (Fin m) (Fin m) ℚ) :
    Matrix (Fin n) (Fin m) ℚ := X * W

/-- Mean of one column of a matrix. -/
def colMean (Y : Matrix (Fin n) (Fin m) ℚ) (j : Fin m) : ℚ :=
  (∑ r, Y r j) / n

/-- Numerator of the Pearson sample correlation between columns `i` and `j`
(`pca_df.corr()`, cell 57): the sum of products of centered entries. -/
def pearsonNum (Y : Matrix (Fin n) (Fin m) ℚ) (i j : Fin m) : ℚ :=
  ∑ r, (Y r i - colMean Y i) * (Y r j - colMean Y j)

/-- Pearson sample correlation between columns `i` and `j`, with the
standard-deviation factors `τ` passed as a parameter (characterized in the
theorems by `τ i ^ 2 = pearsonNum Y i i`). -/
def pearsonCorr (Y : Matrix (Fin n) (Fin m) ℚ) (τ : Fin m → ℚ) (i j : Fin m) : ℚ :=
  pearsonNum Y i j / (τ i * τ j)

/-- If every column of `X` sums to zero, so does every column of `X * W`. -/
lemma colMean_scores_zero (X : Matrix (Fin n) (Fin m) ℚ)
    (W : Matrix (Fin m) (Fin m) ℚ) (hcent : ∀ j, ∑ r, X r j = 0) (j : Fin m) :
    colMean (scores X W) j = 0 := by
  have hsum : ∑ r, (scores X W) r j = 0 := by
    calc ∑ r, (scores X W) r j = ∑ r, ∑ k, X r k * W k j := by
          simp [scores, Matrix.mul_apply]
      _ = ∑ k, ∑ r, X r k * W k j := Finset.sum_comm
      _ = ∑ k, (∑ r, X r k) * W k j := by
          simp [Finset.sum_mul]
      _ = 0 := by simp [hcent]
  simp [colMean, hsum]

/-- For centered columns, the Pearson numerator is an entry of `Yᵀ * Y`,
which for the scores matrix is an entry of `Wᵀ * (Xᵀ * X) * W`. -/
lemma pearsonNum_scores (X : Matrix (Fin n) (Fin m) ℚ)
    (W : Matrix (Fin m) (Fin m) ℚ) (hcent : ∀ j, ∑ r, X r j = 0) (i j : Fin m) :
    pearsonNum (scores X W) i j = (Wᵀ * (Xᵀ * X) * W) i j := by
  have h1 : pearsonNum (scores X W) i j
      = ((scores X W)ᵀ * scores X W) i j := by
    simp [pearsonNum, colMean_scores_zero X W hcent, Matrix.mul_apply,
      Matrix.transpose_apply]
  rw [h1]
  have h2 : (scores X W)ᵀ * scores X W = Wᵀ * (Xᵀ * X) * W := by
    simp only [scores, Matrix.transpose_mul, Matrix.mul_assoc]
  rw [h2]

/-- C2: for every standardized (column-centered) input matrix, and every
component basis `W` that diagonalizes the column covariance structure (the
spec's model of `PCA.fit_transform`, library code not in the repository),
the Pearson sample correlation between any two distinct component score
columns is exactly 0 — and with `τ i` the standard deviation of column `i`,
the correlation matrix of the (retained) components is the identity. -/
theorem C2_component_correlation_identity
    (X : Matrix (Fin n) (Fin m) ℚ) (W : Matrix (Fin m) (Fin m) ℚ)
    (τ : Fin m → ℚ)
    (hcent : ∀ j, ∑ r, X r j = 0)
    (hdiag : ∀ i j, i ≠ j → (Wᵀ * (Xᵀ * X) * W) i j = 0) :
    (∀ i j, i ≠ j → pearsonCorr (scores X W) τ i j = 0) ∧
    (∀ i, τ i ^ 2 = pearsonNum (scores X W) i i → τ i ≠ 0 →
      pearsonCorr (scores X W) τ i i = 1) := by
  constructor
  · intro i j hij
    have h0 : pearsonNum (scores X W) i j = 0 := by
      rw [pearsonNum_scores X W hcent i j]
      exact hdiag i j hij
    simp [pearsonCorr, h0]
  · intro i hτ hne
    have hsq : τ i * τ i = pearsonNum (scores X W) i i := by
      rw [← hτ]; ring
    rw [pearsonCorr, ← hsq]
    exact div_self (mul_ne_zero hne hne)

/-- Witness for C2 at a concrete centered 4×2 matrix whose columns are
orthogonal, with `W` the identity basis. -/
theorem C2_witness :
    pearsonCorr (scores (!![(1:ℚ), 0; -1, 0; 0, 1; 0, -1]) 1) (fun _ => 1) 0 1 = 0 := by
  refine (C2_component_correlation_identity
    (!![(1:ℚ), 0; -1, 0; 0, 1; 0, -1]) 1 (fun _ => 1) ?_ ?_).1 0 1 (by decide)
  · intro j
    fin_cases j <;> simp [Fin.sum_univ_succ]
  · intro i j hij
    simp only [Matrix.transpose_one, Matrix.mul_one, Matrix.one_mul]
    fin_cases i <;> fin_cases j <;>
      simp_all [Matrix.mul_apply, Fin.sum_univ_succ]

/-- The Gram matrix of the scores. -/
lemma scores_gram (X : Matrix (Fin n) (Fin m) ℚ) (W : Matrix (Fin m) (Fin m) ℚ) :
    (scores X W)ᵀ * scores X W = Wᵀ * (Xᵀ * X) * W := by
  simp only [scores, Matrix.transpose_mul, Matrix.mul_assoc]

/-- Sum of squares of one component score column. -/
def componentSS (X : Matrix (Fin n) (Fin m) ℚ) (W : Matrix (Fin m) (Fin m) ℚ)
    (i : Fin m) : ℚ :=
  ((scores X W)ᵀ * scores X W) i i

/-- Total sum of squares of the (centered) input matrix. -/
def totalSS (X : Matrix (Fin n) (Fin m) ℚ) : ℚ := Matrix.trace (Xᵀ * X)

/-- Modelled from the spec: `fit.explained_variance_ratio_` of sklearn's
`PCA` (library code, not in the repository): the per-component variances
(sums of squares of the score columns), sorted in descending order, each
divided by the total variance. -/
def evrList (X : Matrix (Fin n) (Fin m) ℚ) (W : Matrix (Fin m) (Fin m) ℚ) :
    List ℚ :=
  (List.insertionSort (· ≥ ·) (List.ofFn (componentSS X W))).map
    (fun v => v / totalSS X)

/-- Each component's sum of squares is nonnegative. -/
lemma componentSS_nonneg (X : Matrix (Fin n) (Fin m) ℚ)
    (W : Matrix (Fin m) (Fin m) ℚ) (i : Fin m) : 0 ≤ componentSS X W i := by
  simp only [componentSS, Matrix.mul_apply, Matrix.transpose_apply]
  exact Finset.sum_nonneg fun r _ => mul_self_nonneg _

/-- The total sum of squares is nonnegative. -/
lemma totalSS_nonneg (X : Matrix (Fin n) (Fin m) ℚ) : 0 ≤ totalSS X := by
  simp only [totalSS, Matrix.trace, Matrix.diag, Matrix.mul_apply,
    Matrix.transpose_apply]
  exact Finset.sum_nonneg fun i _ =>
    Finset.sum_nonneg fun r _ => mul_self_nonneg _

/-- For an orthonormal basis `W`, the component sums of squares add up to the
total sum of squares (trace preservation). -/
lemma sum_componentSS (X : Matrix (Fin n) (Fin m) ℚ)
    (W : Matrix (Fin m) (Fin m) ℚ) (hW : W * Wᵀ = 1) :
    ∑ i, componentSS X W i = totalSS X := by
  have h1 : ∑ i, componentSS X W i = Matrix.trace (Wᵀ * (Xᵀ * X) * W) := by
    simp [componentSS, scores_gram, Matrix.trace, Matrix.diag]
  rw [h1, Matrix.trace_mul_comm (Wᵀ * (Xᵀ * X)) W, ← Matrix.mul_assoc, hW,
    Matrix.one_mul, totalSS]

/-- C3: for every input matrix and every orthonormal component basis (the
spec's model of sklearn's `PCA`, library code not in the repository), the
explained-variance-ratio sequence has every entry non-negative, sums to
exactly 1 across all components, and is monotonically non-increasing. -/
theorem C3_explained_variance_ratios
    (X : Matrix (Fin n) (Fin m) ℚ) (W : Matrix (Fin m) (Fin m) ℚ)
    (hW : W * Wᵀ = 1) (htot : totalSS X ≠ 0) :
    (∀ x ∈ evrList X W, 0 ≤ x) ∧ (evrList X W).sum = 1 ∧
      (evrList X W).Sorted (· ≥ ·) := by
  have htpos : 0 < totalSS X := lt_of_le_of_ne (totalSS_nonneg X) (Ne.symm htot)
  refine ⟨?_, ?_, ?_⟩
  · intro x hx
    simp only [evrList, List.mem_map] at hx
    obtain ⟨v, hv, rfl⟩ := hx
    have hv2 : v ∈ List.ofFn (componentSS X W) :=
      (List.perm_insertionSort _ _).mem_iff.mp hv
    obtain ⟨i, hi⟩ := Set.mem_range.mp ((List.mem_ofFn _ _).mp hv2)
    rw [← hi]
    exact div_nonneg (componentSS_nonneg X W i) (le_of_lt htpos)
  · have hs : (evrList X W).sum
        = (List.insertionSort (· ≥ ·) (List.ofFn (componentSS X W))).sum
            / totalSS X := by
      simp only [evrList]
      rw [sum_map_div _ (fun x => x)]
      simp only [List.map_id']
    rw [hs, (List.perm_insertionSort _ _).sum_eq, List.sum_ofFn,
      sum_componentSS X W hW, div_self htot]
  · simp only [evrList]
    refine List.Pairwise.map _ ?_ (List.sorted_insertionSort _ _)
    intro a b hab
    exact div_le_div_of_nonneg_right hab (totalSS_nonneg X)

/-- Witness for C3 at a concrete 4×2 matrix with the identity basis. -/
theorem C3_witness :
    (evrList (!![(1:ℚ), 0; -1, 0; 0, 1; 0, -1]) 1).sum = 1 :=
  (C3_explained_variance_ratios (!![(1:ℚ), 0; -1, 0; 0, 1; 0, -1]) 1
    (by simp)
    (by
      simp [totalSS, Matrix.trace, Matrix.diag, Matrix.mul_apply,
        Fin.sum_univ_succ])).2.1

end PCAMatrices

/-- C7: two runs of the Grouper with the same input matrix, the same cluster
count and the same seed produce identical label assignments (determinism
holds by construction in the model: the clustering is a pure function of
matrix, cluster count and seed, as the spec requires), and every label lies
in `[0, C)`. -/
theorem C7_kmeans_deterministic_and_labels_in_range
    (rows : List (List ℚ)) (C seed T : ℕ) (hC : 0 < C) :
    kmeansLabels rows C seed T = kmeansLabels rows C seed T ∧
      ∀ l ∈ kmeansLabels rows C seed T, l < C := by
  refine ⟨rfl, ?_⟩
  intro l hl
  simp only [kmeansLabels, assignLabels, List.mem_map] at hl
  obtain ⟨r, _, rfl⟩ := hl
  have hlen : (kmeansIter rows C T (initCentroids rows C seed)).length = C :=
    kmeansIter_length rows C T _ (by simp [initCentroids])
  have hne : kmeansIter rows C T (initCentroids rows C seed) ≠ [] := by
    intro h0
    rw [h0] at hlen
    simp at hlen
    omega
  have := nearestIdx_lt (kmeansIter rows C T (initCentroids rows C seed)) r hne
  rwa [hlen] at this

/-- Witness for C7 at a concrete two-row matrix, three clusters, seed 13. -/
theorem C7_witness :
    kmeansLabels [[(0:ℚ)], [10]] 3 13 2 = kmeansLabels [[(0:ℚ)], [10]] 3 13 2 :=
  (C7_kmeans_deterministic_and_labels_in_range [[(0:ℚ)], [10]] 3 13 2
    (by decide)).1

/-! ## Column-order preservation (cells 31, 35 and 60) -/

/-- The Box-Cox loop of cell 31 as a named-column table operation: each
column keeps its position, its name gains the `_TF` suffix
(`nutr_df_TF['{}_TF'.format(col)]`), and its data is transformed by `g`. -/
def transformTable (g : List ℚ → List ℚ) (cols : List (String × List ℚ)) :
    List (String × List ℚ) :=
  cols.map (fun c => (c.1 ++ "_TF", g c.2))

/-- Standardization as a named-column table operation: each column keeps its
position and name, and its data is rescaled by `h`. -/
def scaleTable (h : List ℚ → List ℚ) (cols : List (String × List ℚ)) :
    List (String × List ℚ) :=
  cols.map (fun c => (c.1, h c.2))

/-- `pd.Series(vects[0], index=nutr_df.columns)` (cell 60): pair the entries
of a loading vector with the original feature names, positionally. -/
def loadingSeries (names : List String) (v : List ℚ) : List (String × ℚ) :=
  names.zip v

/-- `getD` after `map`. -/
lemma getD_map {α β : Type} (f : α → β) (l : List α) (j : ℕ) (d : β) (d' : α)
    (hj : j < l.length) : (l.map f).getD j d = f (l.getD j d') := by
  induction l generalizing j with
  | nil => cases hj
  | cons x xs ih =>
      cases j with
      | zero => simp
      | succ k =>
          simp only [List.map_cons, List.getD_cons_succ]
          exact ih k (Nat.lt_of_succ_lt_succ hj)

/-- `getD` of a `zip`. -/
lemma getD_zip (names : List String) (v : List ℚ) (j : ℕ)
    (h1 : j < names.length) (h2 : j < v.length) :
    (names.zip v).getD j ("", 0) = (names.getD j "", v.getD j 0) := by
  induction names generalizing v j with
  | nil => cases h1
  | cons x xs ih =>
      cases v with
      | nil => cases h2
      | cons y ys =>
          cases j with
          | zero => simp
          | succ k =>
              simp only [List.zip_cons_cons, List.getD_cons_succ]
              exact ih ys k (Nat.lt_of_succ_lt_succ h1) (Nat.lt_of_succ_lt_succ h2)

/-- C9: column order of the numeric subset is preserved through the power
transform and standardization — for every per-column value transforms `g`
and `h`, the `j`-th output column is the `j`-th input column with the `_TF`
suffix — and the loading series pairs the `j`-th loading entry with the
`j`-th original feature name. -/
theorem C9_column_order_preserved (g h : List ℚ → List ℚ)
    (cols : List (String × List ℚ)) (names : List String) (v : List ℚ) (j : ℕ)
    (hj : j < cols.length) (h1 : j < names.length) (h2 : j < v.length) :
    (scaleTable h (transformTable g cols)).map Prod.fst
        = cols.map (fun c => c.1 ++ "_TF") ∧
    ((scaleTable h (transformTable g cols)).map Prod.fst).getD j ""
        = (cols.map Prod.fst).getD j "" ++ "_TF" ∧
    (loadingSeries names v).getD j ("", 0) = (names.getD j "", v.getD j 0) := by
  have hnames : (scaleTable h (transformTable g cols)).map Prod.fst
      = cols.map (fun c => c.1 ++ "_TF") := by
    simp [scaleTable, transformTable, List.map_map, Function.comp]
  refine ⟨hnames, ?_, getD_zip names v j h1 h2⟩
  rw [hnames, getD_map _ cols j "" ("", []) hj, getD_map _ cols j "" ("", []) hj]

/-- Witness for C9 at a concrete two-column table. -/
theorem C9_witness :
    ((scaleTable id (transformTable id [("Protein", [1]), ("Zinc", [2])])).map
        Prod.fst).getD 1 ""
      = ([("Protein", [(1:ℚ)]), ("Zinc", [2])].map Prod.fst).getD 1 "" ++ "_TF" :=
  (C9_column_order_preserved id id [("Protein", [1]), ("Zinc", [2])]
    ["Protein", "Zinc"] [3, 4] 1 (by decide) (by decide) (by decide)).2.1

end PCAPipeline
